import Mathlib

/-!
Verification model for the scanned-document translation app.

The development embeds, from the repository sources:
  - the batch scheduler of App.tsx (processQueue inside the effect on
    the task list): task creation, the single-worker admission guard,
    the per-task patch functions written with object spreads, the
    streamed block appends and their progress formula, the completion
    and failure patches, and task removal;
  - the geometry/typography engine inlined in the SplitView component
    (boxWidthPx, boxHeightPx, area, charCount, estimatedFontSize with
    its short-string cap, clamp and heading boost);
  - the area-descending stable sort of translated blocks (sortedBlocks);
  - the provenance of the bytes handed to the analysis adapter
    (fileToBase64) versus the bytes produced by the PDF preview
    rasterizer (loadPreview).

Modelling conventions: IEEE doubles are replaced by exact arithmetic
(Nat for progress percentages, Rat for coordinates, Real only where the
source takes a square root); the random string identifiers of tasks are
replaced by a fresh-id counter (uniqueness is what the code relies on);
the stable Array.prototype.sort with comparator areaB - areaA is
modelled by a stable insertion sort descending on area; the JavaScript
await points split the pipeline into the atomic state transitions of an
inductive step relation, and the abandoned pipeline of a removed task
is kept as a thread that may still fire its keyed-by-id updates.
-/

/-! ## Data model (src types: TranslatedBlock, GeminiBlockResponse) -/

inductive BType
  | text
  | heading
  | table_cell
deriving DecidableEq, Repr

/-- Bounding box as in the source: box = [ymin, xmin, ymax, xmax], values
in percent (0-100) of the page dimensions. -/
structure BBox where
  ymin : ℚ
  xmin : ℚ
  ymax : ℚ
  xmax : ℚ
deriving DecidableEq, Repr

/-- A stored translated block (types.ts TranslatedBlock).  The random
display id (built from Date.now) is dropped; an undefined isBold is
modelled as false and an undefined type as none, exactly how the
rendering code reads them. -/
structure TranslatedBlock where
  pageIndex : ℕ
  text : String
  translatedText : String
  box : BBox
  isBold : Bool
  btype : Option BType
deriving DecidableEq, Repr

/-- One block of the adapter response (GeminiBlockResponse.blocks[i]). -/
structure BlockData where
  text : String
  translatedText : String
  box : BBox
  isBold : Bool
  btype : Option BType
deriving DecidableEq, Repr

/-! ## Geometry / typography engine (SplitView render loop) -/

/-- Pixel width of a block box: width percent times 5.95 times zoom
(the source line: boxWidthPx = width * 5.95 * zoom). -/
def boxWidthPx (b : BBox) (zoom : ℚ) : ℚ :=
  (b.xmax - b.xmin) * 5.95 * zoom

/-- Pixel height of a block box: height percent times 8.42 times zoom
(the source line: boxHeightPx = height * 8.42 * zoom). -/
def boxHeightPx (b : BBox) (zoom : ℚ) : ℚ :=
  (b.ymax - b.ymin) * 8.42 * zoom

/-- Box area in square pixels (the source line: area = boxWidthPx * boxHeightPx). -/
def areaPx (b : BBox) (zoom : ℚ) : ℚ :=
  boxWidthPx b zoom * boxHeightPx b zoom

/-- Character count with zero-protection (the source line:
charCount = block.translatedText.length || 1). -/
def charCount (s : String) : ℕ :=
  if s.length = 0 then 1 else s.length

/-- Density estimate (the source line:
estimatedFontSize = Math.sqrt((area * 0.90) / charCount)). -/
noncomputable def estimatedFontSizeRaw (b : BBox) (txt : String) (zoom : ℚ) : ℝ :=
  Real.sqrt ((areaPx b zoom * 0.90 / (charCount txt : ℚ) : ℚ) : ℝ)

/-- Short-string sanity cap (the source lines: if charCount < 10 then
estimatedFontSize = Math.min(estimatedFontSize, boxHeightPx * 0.85)). -/
noncomputable def estimatedFontSizeCapped (b : BBox) (txt : String) (zoom : ℚ) : ℝ :=
  if charCount txt < 10 then
    min (estimatedFontSizeRaw b txt zoom) ((boxHeightPx b zoom * 0.85 : ℚ) : ℝ)
  else estimatedFontSizeRaw b txt zoom

/-- Clamp to the legibility window (the source lines: minFs = 9 * zoom;
maxFs = 48 * zoom; Math.max(minFs, Math.min(estimatedFontSize, maxFs))). -/
noncomputable def fontSizeClamped (b : BBox) (txt : String) (zoom : ℚ) : ℝ :=
  max ((9 * zoom : ℚ) : ℝ) (min (estimatedFontSizeCapped b txt zoom) ((48 * zoom : ℚ) : ℝ))

/-- Header adjustment (the source lines: if block.type == heading then
estimatedFontSize = Math.max(estimatedFontSize, 14 * zoom)). -/
noncomputable def fontSizeFinal (b : BBox) (txt : String) (bt : Option BType) (zoom : ℚ) : ℝ :=
  if bt = some BType.heading then
    max (fontSizeClamped b txt zoom) ((14 * zoom : ℚ) : ℝ)
  else fontSizeClamped b txt zoom

/-! ## Render ordering (SplitView sortedBlocks) -/

/-- Area of a block box as the sort comparator computes it:
(box[2] - box[0]) * (box[3] - box[1]). -/
def blockArea (t : TranslatedBlock) : ℚ :=
  (t.box.ymax - t.box.ymin) * (t.box.xmax - t.box.xmin)

/-- Stable insertion of a block into an area-descending list: skip the
strictly larger blocks, land in front of the first block of smaller or
equal area.  Together with sortBlocksDesc this models the ECMAScript
stable Array.prototype.sort with comparator areaB - areaA. -/
def insertByArea (a : TranslatedBlock) : List TranslatedBlock → List TranslatedBlock
  | [] => [a]
  | b :: l => if blockArea a < blockArea b then b :: insertByArea a l else a :: b :: l

/-- Stable sort of the blocks, area descending. -/
def sortBlocksDesc : List TranslatedBlock → List TranslatedBlock
  | [] => []
  | a :: l => insertByArea a (sortBlocksDesc l)

/-- The source useMemo: sortedBlocks = [...task.translatedBlocks].sort(by descending area). -/
def sortedBlocks (blocks : List TranslatedBlock) : List TranslatedBlock :=
  sortBlocksDesc blocks

/-- Demo block of area 10 (box height 1, width 10). -/
def demoBlk10 : TranslatedBlock :=
  { pageIndex := 0, text := "a", translatedText := "a", box := ⟨0, 0, 1, 10⟩,
    isBold := false, btype := none }

/-- Demo block of area 50 (box height 5, width 10). -/
def demoBlk50 : TranslatedBlock :=
  { pageIndex := 0, text := "b", translatedText := "b", box := ⟨0, 0, 5, 10⟩,
    isBold := false, btype := none }

/-- Demo block of area 5 (box height 1, width 5). -/
def demoBlk5 : TranslatedBlock :=
  { pageIndex := 0, text := "c", translatedText := "c", box := ⟨0, 0, 1, 5⟩,
    isBold := false, btype := none }

/-! ## Byte provenance: adapter input versus preview rasterization -/

/-- A source file: an abstract content identifier plus its MIME type. -/
structure SrcFile where
  fid : ℕ
  ftype : String
deriving DecidableEq, Repr

/-- Provenance-tracking image bytes: either the raw bytes of a file, or
a JPEG produced by rasterizing one page of a PDF at some scale and
quality. -/
inductive ImageBytes
  | fileData (fid : ℕ)
  | jpegRaster (fid : ℕ) (page : ℕ) (scale : ℚ) (quality : ℚ)
deriving DecidableEq, Repr

/-- App.tsx fileToBase64: reads the raw file and base64-encodes it; the
bytes are those of the original file. -/
def fileToBase64 (f : SrcFile) : ImageBytes :=
  ImageBytes.fileData f.fid

/-- App.tsx processQueue: the bytes handed to analyzeAndTranslateImage
are fileToBase64(pendingTask.file), for every task regardless of type. -/
def schedulerAdapterInput (f : SrcFile) : ImageBytes :=
  fileToBase64 f

/-- SplitView loadPreview: a PDF is rasterized (page 1, scale 2.0,
canvas.toBlob with image/jpeg at 0.95); an image file is shown as is. -/
def loadPreviewBytes (f : SrcFile) : ImageBytes :=
  if f.ftype = "application/pdf" then ImageBytes.jpegRaster f.fid 1 2 0.95
  else ImageBytes.fileData f.fid

/-- A concrete PDF file for the C9 counterexample. -/
def demoPdf : SrcFile :=
  { fid := 0, ftype := "application/pdf" }

/-! ## Task store and batch scheduler (App.tsx) -/

/-- Task status: pending / processing / completed / error in the source
(the spec names Analyzing and Streaming collapse into the single
processing status of the code). -/
inductive TStatus
  | pending
  | processing
  | completed
  | error
deriving DecidableEq, Repr

/-- A file task (types.ts FileTask).  The random id is replaced by a
natural number drawn from a fresh-id counter. -/
structure SchedTask where
  id : ℕ
  name : String
  ftype : String
  previewUrl : String
  status : TStatus
  detailedStatus : String
  progress : ℕ
  totalPages : ℕ
  processedPages : ℕ
  warnings : List String
  translatedBlocks : List TranslatedBlock
  targetLanguage : String
deriving DecidableEq, Repr

/-- The data of one submitted file (name, MIME type, object URL, target
language), as consumed by handleFilesSelected. -/
structure NewFile where
  name : String
  ftype : String
  previewUrl : String
  targetLanguage : String
deriving DecidableEq, Repr

/-- Task created on submission (handleFilesSelected): status pending,
detailed status "Waiting to start...", progress 0, one page, no
warnings, no blocks. -/
def mkTask (i : ℕ) (f : NewFile) : SchedTask :=
  { id := i, name := f.name, ftype := f.ftype, previewUrl := f.previewUrl,
    status := TStatus.pending, detailedStatus := "Waiting to start...",
    progress := 0, totalPages := 1, processedPages := 0, warnings := [],
    translatedBlocks := [], targetLanguage := f.targetLanguage }

/-- Tasks for a batch of submitted files, ids drawn consecutively. -/
def mkTasks : ℕ → List NewFile → List SchedTask
  | _, [] => []
  | n, f :: fs => mkTask n f :: mkTasks (n + 1) fs

/-- The update pattern of every setTasks call in processQueue:
prev.map(t => t.id === id ? patch(t) : t). -/
def patchTask (i : ℕ) (f : SchedTask → SchedTask) (ts : List SchedTask) : List SchedTask :=
  ts.map fun t => if t.id = i then f t else t

/-- Phase-1 start patch: status processing, "Performing OCR Analysis...",
progress 5. -/
def startPatch (t : SchedTask) : SchedTask :=
  { t with status := TStatus.processing,
           detailedStatus := "Performing OCR Analysis...", progress := 5 }

/-- Patch after the file bytes were read: progress 20,
"Extracting text layout...". -/
def analyzePatch (t : SchedTask) : SchedTask :=
  { t with progress := 20, detailedStatus := "Extracting text layout..." }

/-- Patch after a well-formed adapter response, before streaming:
"Translating content (Page 1)..." (progress untouched). -/
def streamInitPatch (t : SchedTask) : SchedTask :=
  { t with detailedStatus := "Translating content (Page 1)..." }

/-- Conversion of an adapter block to a stored block (the newBlock
object literal in the streaming loop; pageIndex 0). -/
def toTranslatedBlock (b : BlockData) : TranslatedBlock :=
  { pageIndex := 0, text := b.text, translatedText := b.translatedText,
    box := b.box, isBold := b.isBold, btype := b.btype }

/-- The progress written after appending block k (0-based) of n:
30 + Math.floor(((k + 1) / n) * 60), in exact arithmetic. -/
def streamProgress (k n : ℕ) : ℕ :=
  30 + 60 * (k + 1) / n

/-- Streaming patch for block k of n: append the converted block, set
the progress of streamProgress, set the detailed block counter text. -/
def blockPatch (b : BlockData) (k n : ℕ) (t : SchedTask) : SchedTask :=
  { t with translatedBlocks := t.translatedBlocks ++ [toTranslatedBlock b],
           progress := streamProgress k n,
           detailedStatus :=
             "Translating block " ++ toString (k + 1) ++ "/" ++ toString n
               ++ " (" ++ toString (streamProgress k n) ++ "%)" }

/-- Completion patch: status completed, "Translation Completed",
progress 100. -/
def completePatch (t : SchedTask) : SchedTask :=
  { t with status := TStatus.completed,
           detailedStatus := "Translation Completed", progress := 100 }

/-- Failure patch (the catch block): status error, "Error encountered",
warnings replaced by the single message; every other field kept. -/
def failPatch (msg : String) (t : SchedTask) : SchedTask :=
  { t with status := TStatus.error, detailedStatus := "Error encountered",
           warnings := [msg] }

/-- Program counter of one in-flight pipeline run for a task id,
tracking where between the await points of processQueue it stands. -/
inductive PC
  | started
  | analyzed
  | streaming (bs : List BlockData) (k : ℕ)
  | done
deriving DecidableEq, Repr

/-- A pipeline run is live unless it has terminated. -/
def PC.isActive : PC → Bool
  | PC.done => false
  | _ => true

/-- Whole-app state: the task list, the in-flight pipeline (if any) per
task id, and the fresh-id counter. -/
structure Sys where
  tasks : List SchedTask
  threads : ℕ → Option PC
  nextId : ℕ

/-- Initial state: no tasks, no pipelines. -/
def initSys : Sys :=
  { tasks := [], threads := fun _ => none, nextId := 0 }

/-- The admission guard of the effect:
tasks.some(t => t.status === processing). -/
def anyProcessing (ts : List SchedTask) : Bool :=
  ts.any fun t => decide (t.status = TStatus.processing)

/-- The selection of the driver: tasks.find(t => t.status === pending). -/
def findPending (ts : List SchedTask) : Option SchedTask :=
  ts.find? fun t => decide (t.status = TStatus.pending)

/-- Number of tasks whose status is processing. -/
def processingCount (ts : List SchedTask) : ℕ :=
  ts.countP fun t => decide (t.status = TStatus.processing)

/-- State after submitting a batch of files. -/
def submitState (s : Sys) (fs : List NewFile) : Sys :=
  { tasks := s.tasks ++ mkTasks s.nextId fs, threads := s.threads,
    nextId := s.nextId + fs.length }

/-- State after removing a task id (the trash button:
setTasks(ts => ts.filter(t => t.id !== id))); the in-flight pipeline, if
any, is left running and from now on patches nothing. -/
def removeState (s : Sys) (i : ℕ) : Sys :=
  { tasks := s.tasks.filter fun u => decide (u.id ≠ i), threads := s.threads,
    nextId := s.nextId }

/-- State after the driver picks pending task t: starting patch applied
and a pipeline run created for t.id. -/
def startState (s : Sys) (t : SchedTask) : Sys :=
  { tasks := patchTask t.id startPatch s.tasks,
    threads := Function.update s.threads t.id (some PC.started),
    nextId := s.nextId }

/-- State after the pipeline of task i finished reading the file bytes. -/
def readBytesState (s : Sys) (i : ℕ) : Sys :=
  { tasks := patchTask i analyzePatch s.tasks,
    threads := Function.update s.threads i (some PC.analyzed),
    nextId := s.nextId }

/-- State after the pipeline of task i caught an error (file read
failure, adapter rejection or malformed response). -/
def failState (s : Sys) (i : ℕ) (msg : String) : Sys :=
  { tasks := patchTask i (failPatch msg) s.tasks,
    threads := Function.update s.threads i (some PC.done),
    nextId := s.nextId }

/-- State after the adapter returned the well-formed block list bs for
task i: streaming starts at block 0. -/
def analyzeOkState (s : Sys) (i : ℕ) (bs : List BlockData) : Sys :=
  { tasks := patchTask i streamInitPatch s.tasks,
    threads := Function.update s.threads i (some (PC.streaming bs 0)),
    nextId := s.nextId }

/-- State after the pipeline of task i appended block k of bs. -/
def streamOneState (s : Sys) (i : ℕ) (bs : List BlockData) (k : ℕ) (hk : k < bs.length) : Sys :=
  { tasks := patchTask i (blockPatch (bs.get ⟨k, hk⟩) k bs.length) s.tasks,
    threads := Function.update s.threads i (some (PC.streaming bs (k + 1))),
    nextId := s.nextId }

/-- State after the pipeline of task i appended all its blocks. -/
def completeState (s : Sys) (i : ℕ) : Sys :=
  { tasks := patchTask i completePatch s.tasks,
    threads := Function.update s.threads i (some PC.done),
    nextId := s.nextId }

/-- The atomic transitions of the app.  Each JavaScript await point of
processQueue yields one transition; the driver-start transition carries
the admission guard and the first-pending selection exactly as the
effect evaluates them (synchronously, hence atomically). -/
inductive SchedStep : Sys → Sys → Prop
  | submit (s : Sys) (fs : List NewFile) :
      SchedStep s (submitState s fs)
  | remove (s : Sys) (i : ℕ) :
      SchedStep s (removeState s i)
  | start (s : Sys) (t : SchedTask)
      (hg : anyProcessing s.tasks = false)
      (hf : findPending s.tasks = some t) :
      SchedStep s (startState s t)
  | readBytes (s : Sys) (i : ℕ)
      (h : s.threads i = some PC.started) :
      SchedStep s (readBytesState s i)
  | fail (s : Sys) (i : ℕ) (p : PC) (msg : String)
      (h : s.threads i = some p)
      (hp : p = PC.started ∨ p = PC.analyzed) :
      SchedStep s (failState s i msg)
  | analyzeOk (s : Sys) (i : ℕ) (bs : List BlockData)
      (h : s.threads i = some PC.analyzed) :
      SchedStep s (analyzeOkState s i bs)
  | streamOne (s : Sys) (i : ℕ) (bs : List BlockData) (k : ℕ)
      (h : s.threads i = some (PC.streaming bs k))
      (hk : k < bs.length) :
      SchedStep s (streamOneState s i bs k hk)
  | complete (s : Sys) (i : ℕ) (bs : List BlockData)
      (h : s.threads i = some (PC.streaming bs bs.length)) :
      SchedStep s (completeState s i)

/-- Reachability from the empty initial state. -/
def SchedReachable (s : Sys) : Prop :=
  Relation.ReflTransGen SchedStep initSys s

/-- What the pipeline position of a live run says about its task:
progress and streamed-block count per program counter. -/
def pcTaskLink : PC → SchedTask → Prop
  | PC.started, t => t.progress = 5 ∧ t.translatedBlocks = []
  | PC.analyzed, t => t.progress = 20 ∧ t.translatedBlocks = []
  | PC.streaming bs k, t =>
      k ≤ bs.length ∧ t.translatedBlocks.length = k ∧
        t.progress = (if k = 0 then 20 else 30 + 60 * k / bs.length)
  | PC.done, _ => True

/-- The inductive invariant of the scheduler: distinct ids below the
counter, the single-worker admission bound, live-run ids below the
counter, at most one live run per id, live runs matching their task,
and untouched pending tasks. -/
def SchedInv (s : Sys) : Prop :=
  (s.tasks.map SchedTask.id).Nodup ∧
  (∀ t ∈ s.tasks, t.id < s.nextId) ∧
  processingCount s.tasks ≤ 1 ∧
  (∀ i p, s.threads i = some p → i < s.nextId) ∧
  (∀ i p, s.threads i = some p → p.isActive = true →
    ∀ t ∈ s.tasks, t.id = i → t.status = TStatus.processing ∧ pcTaskLink p t) ∧
  (∀ t ∈ s.tasks, t.status = TStatus.pending →
    t.progress = 0 ∧ t.translatedBlocks = [])

/-- Progress of the task with the given id, if present. -/
def progressAt (s : Sys) (i : ℕ) : Option ℕ :=
  (s.tasks.find? fun t => decide (t.id = i)).map SchedTask.progress

/-- A task id is gone and cannot be reissued. -/
def IdAbsent (i : ℕ) (s : Sys) : Prop :=
  i ∉ s.tasks.map SchedTask.id ∧ i < s.nextId

/-! ## Concrete runs used as counterexamples and witnesses -/

/-- A submitted PDF file. -/
def file1 : NewFile :=
  { name := "doc.pdf", ftype := "application/pdf", previewUrl := "blob:doc",
    targetLanguage := "zh-CN" }

/-- A second submitted file, an image. -/
def file2 : NewFile :=
  { name := "scan.png", ftype := "image/png", previewUrl := "blob:scan",
    targetLanguage := "ja" }

/-- The task created for file1 (id 0). -/
def task1 : SchedTask := mkTask 0 file1

/-- The task created for file2 when submitted together with file1 (id 1). -/
def task2 : SchedTask := mkTask 1 file2

/-- First adapter block of the demo response. -/
def blkA : BlockData :=
  { text := "Title", translatedText := "T1", box := ⟨2, 10, 6, 90⟩,
    isBold := true, btype := some BType.heading }

/-- Second adapter block of the demo response. -/
def blkB : BlockData :=
  { text := "Body", translatedText := "T2", box := ⟨10, 10, 40, 90⟩,
    isBold := false, btype := some BType.text }

/-- Third adapter block of the demo response. -/
def blkC : BlockData :=
  { text := "Cell", translatedText := "T3", box := ⟨50, 10, 55, 30⟩,
    isBold := false, btype := some BType.table_cell }

/-- The demo adapter response: three blocks. -/
def bsDemo : List BlockData := [blkA, blkB, blkC]

/-- Run state 0: the initial state. -/
def run0 : Sys := initSys

/-- Run state 1: file1 submitted. -/
def run1 : Sys := submitState run0 [file1]

/-- Run state 2: the driver started task 0. -/
def run2 : Sys := startState run1 task1

/-- Run state 3: bytes read, progress 20. -/
def run3 : Sys := readBytesState run2 0

/-- Run state 4: adapter returned the three demo blocks. -/
def run4 : Sys := analyzeOkState run3 0 bsDemo

/-- Run state 5: block 1 of 3 appended. -/
def run5 : Sys := streamOneState run4 0 bsDemo 0 (by decide)

/-- Run state 6: block 2 of 3 appended. -/
def run6 : Sys := streamOneState run5 0 bsDemo 1 (by decide)

/-- Run state 7: block 3 of 3 appended. -/
def run7 : Sys := streamOneState run6 0 bsDemo 2 (by decide)

/-- Run state 8: task 0 completed. -/
def run8 : Sys := completeState run7 0

/-- Two-file run, state 1: file1 and file2 submitted together. -/
def w1 : Sys := submitState run0 [file1, file2]

/-- Two-file run, state 2: the driver started task 0; task 1 pending. -/
def w2 : Sys := startState w1 task1

/-- Two-file run, state 3: bytes of task 0 read; its adapter call is in
flight; task 1 still pending. -/
def w3 : Sys := readBytesState w2 0

/-- The single task of the one-file run as it stands in run4 (and w3
up to detailed status): started, bytes read, streaming about to begin. -/
def run4Task : SchedTask := streamInitPatch (analyzePatch (startPatch task1))

/-- The task of the one-file run after the first streamed block. -/
def run5Task : SchedTask := blockPatch blkA 0 3 run4Task

/-- The active task of the two-file run in w3: started and analyzed. -/
def w3Task : SchedTask := analyzePatch (startPatch task1)

/-- The active task of the one-file run in run2: just started. -/
def run2Task : SchedTask := startPatch task1

/-! ## Theorems: geometry engine (C3, C4) -/

theorem charCount_eq_max (txt : String) : charCount txt = max 1 txt.length := by
  unfold charCount
  split <;> omega

/-- C3: for every block and zoom factor, the engine computes
fontSize = sqrt(area * 0.90 / charCount) with area the pixel width times
pixel height (the fractional box dimensions scaled by the 595 x 842 page
and the zoom) and charCount = max(1, length(text)), so an empty text
never divides by zero; and when charCount < 10 the size is additionally
capped at 0.85 times the pixel height. -/
theorem c3_font_density (b : BBox) (txt : String) (zoom : ℚ) :
    charCount txt = max 1 txt.length ∧
    0 < charCount txt ∧
    estimatedFontSizeRaw b txt zoom =
      Real.sqrt ((((b.xmax - b.xmin) / 100 * 595 * zoom) *
        ((b.ymax - b.ymin) / 100 * 842 * zoom) * (9 / 10) /
          (max 1 txt.length : ℚ) : ℚ) : ℝ) ∧
    estimatedFontSizeCapped b txt zoom =
      (if max 1 txt.length < 10 then
        min (estimatedFontSizeRaw b txt zoom)
          (((b.ymax - b.ymin) / 100 * 842 * zoom * (17 / 20) : ℚ) : ℝ)
       else estimatedFontSizeRaw b txt zoom) := by
  have h1 : charCount txt = max 1 txt.length := charCount_eq_max txt
  refine ⟨h1, by omega, ?_, ?_⟩
  · unfold estimatedFontSizeRaw
    congr 2
    rw [h1]
    unfold areaPx boxWidthPx boxHeightPx
    rw [show (0.90 : ℚ) = 9 / 10 by norm_num, show (5.95 : ℚ) = 595 / 100 by norm_num,
      show (8.42 : ℚ) = 842 / 100 by norm_num]
    push_cast
    ring_nf
  · unfold estimatedFontSizeCapped
    rw [h1]
    congr 2
    unfold boxHeightPx
    rw [show (0.85 : ℚ) = 17 / 20 by norm_num, show (8.42 : ℚ) = 842 / 100 by norm_num]
    ring_nf

/-- C4: for every box, text, block type and nonnegative zoom factor, the
final font size lies in [9 * zoom, 48 * zoom], and a heading block is
floored at 14 * zoom.  (The app clamps its zoom factor to [0.5, 3], so
zoom factors are nonnegative.) -/
theorem c4_font_bounds (b : BBox) (txt : String) (bt : Option BType) (zoom : ℚ)
    (hz : 0 ≤ zoom) :
    ((9 * zoom : ℚ) : ℝ) ≤ fontSizeFinal b txt bt zoom ∧
    fontSizeFinal b txt bt zoom ≤ ((48 * zoom : ℚ) : ℝ) ∧
    (bt = some BType.heading →
      ((14 * zoom : ℚ) : ℝ) ≤ fontSizeFinal b txt bt zoom) := by
  have h948 : ((9 * zoom : ℚ) : ℝ) ≤ ((48 * zoom : ℚ) : ℝ) := by
    have : (9 : ℚ) * zoom ≤ 48 * zoom :=
      mul_le_mul_of_nonneg_right (by norm_num) hz
    exact_mod_cast this
  have h1448 : ((14 * zoom : ℚ) : ℝ) ≤ ((48 * zoom : ℚ) : ℝ) := by
    have : (14 : ℚ) * zoom ≤ 48 * zoom :=
      mul_le_mul_of_nonneg_right (by norm_num) hz
    exact_mod_cast this
  have hcl : ((9 * zoom : ℚ) : ℝ) ≤ fontSizeClamped b txt zoom :=
    le_max_left _ _
  have hcu : fontSizeClamped b txt zoom ≤ ((48 * zoom : ℚ) : ℝ) :=
    max_le h948 (min_le_right _ _)
  unfold fontSizeFinal
  by_cases hb : bt = some BType.heading
  · rw [if_pos hb]
    exact ⟨le_trans hcl (le_max_left _ _), max_le hcu h1448,
      fun _ => le_max_right _ _⟩
  · rw [if_neg hb]
    exact ⟨hcl, hcu, fun h => absurd h hb⟩

/-! ## Theorems: render ordering (C5) -/

theorem insertByArea_perm (a : TranslatedBlock) (l : List TranslatedBlock) :
    (insertByArea a l).Perm (a :: l) := by
  induction l with
  | nil => rfl
  | cons b l ih =>
    unfold insertByArea
    split
    · exact ((ih.cons b).trans (List.Perm.swap a b l)).symm.symm
    · exact List.Perm.refl _

theorem sortBlocksDesc_perm (l : List TranslatedBlock) :
    (sortBlocksDesc l).Perm l := by
  induction l with
  | nil => rfl
  | cons a l ih =>
    exact (insertByArea_perm a (sortBlocksDesc l)).trans (ih.cons a)

theorem insertByArea_pairwise (a : TranslatedBlock) (l : List TranslatedBlock)
    (h : l.Pairwise fun x y => blockArea y ≤ blockArea x) :
    (insertByArea a l).Pairwise fun x y => blockArea y ≤ blockArea x := by
  induction l with
  | nil => simp [insertByArea]
  | cons b l ih =>
    rw [List.pairwise_cons] at h
    unfold insertByArea
    split
    · rename_i hab
      rw [List.pairwise_cons]
      refine ⟨?_, ih h.2⟩
      intro x hx
      rcases List.mem_cons.mp ((insertByArea_perm a l).mem_iff.mp hx) with hx' | hx'
      · rw [hx']
        exact le_of_lt hab
      · exact h.1 x hx'
    · rename_i hab
      rw [List.pairwise_cons]
      refine ⟨?_, List.pairwise_cons.mpr h⟩
      intro x hx
      rcases List.mem_cons.mp hx with hx' | hx'
      · rw [hx']
        exact not_lt.mp hab
      · exact le_trans (h.1 x hx') (not_lt.mp hab)

theorem sortBlocksDesc_pairwise (l : List TranslatedBlock) :
    (sortBlocksDesc l).Pairwise fun x y => blockArea y ≤ blockArea x := by
  induction l with
  | nil => simp [sortBlocksDesc]
  | cons a l ih => exact insertByArea_pairwise a (sortBlocksDesc l) ih

theorem filter_insertByArea_ne (a : TranslatedBlock) (l : List TranslatedBlock)
    (q : ℚ) (ha : blockArea a ≠ q) :
    (insertByArea a l).filter (fun x => decide (blockArea x = q)) =
      l.filter fun x => decide (blockArea x = q) := by
  induction l with
  | nil => simp [insertByArea, ha]
  | cons b l ih =>
    unfold insertByArea
    split
    · rw [List.filter_cons, List.filter_cons, ih]
    · rw [List.filter_cons, List.filter_cons]
      simp only [decide_eq_true_eq]
      rw [if_neg ha]

theorem filter_insertByArea_eq (a : TranslatedBlock) (l : List TranslatedBlock)
    (q : ℚ) (ha : blockArea a = q)
    (hs : l.Pairwise fun x y => blockArea y ≤ blockArea x) :
    (insertByArea a l).filter (fun x => decide (blockArea x = q)) =
      a :: l.filter fun x => decide (blockArea x = q) := by
  induction l with
  | nil => simp [insertByArea, ha]
  | cons b l ih =>
    rw [List.pairwise_cons] at hs
    unfold insertByArea
    split
    · rename_i hab
      have hbq : blockArea b ≠ q := by
        rw [← ha]
        exact ne_of_gt hab
      rw [List.filter_cons, List.filter_cons]
      simp only [decide_eq_true_eq]
      rw [if_neg hbq, if_neg hbq]
      exact ih hs.2
    · rw [List.filter_cons]
      simp only [decide_eq_true_eq]
      rw [if_pos ha]

theorem sortBlocksDesc_filter (l : List TranslatedBlock) (q : ℚ) :
    (sortBlocksDesc l).filter (fun x => decide (blockArea x = q)) =
      l.filter fun x => decide (blockArea x = q) := by
  induction l with
  | nil => rfl
  | cons a l ih =>
    show (insertByArea a (sortBlocksDesc l)).filter _ = _
    by_cases ha : blockArea a = q
    · rw [filter_insertByArea_eq a _ q ha (sortBlocksDesc_pairwise l), ih,
        List.filter_cons]
      simp only [decide_eq_true_eq]
      rw [if_pos ha]
    · rw [filter_insertByArea_ne a _ q ha, ih, List.filter_cons]
      simp only [decide_eq_true_eq]
      rw [if_neg ha]

/-- C5: the rendered block sequence is the block list sorted by
descending box area, the sort is stable (blocks of equal area keep
their original relative order, stated as preservation of every
equal-area fiber), and on blocks of areas [10, 50, 5] the rendered
order is [50, 10, 5]. -/
theorem c5_render_order (bs : List TranslatedBlock) :
    (sortedBlocks bs).Perm bs ∧
    ((sortedBlocks bs).Pairwise fun x y => blockArea y ≤ blockArea x) ∧
    (∀ q : ℚ, (sortedBlocks bs).filter (fun x => decide (blockArea x = q)) =
      bs.filter fun x => decide (blockArea x = q)) ∧
    blockArea demoBlk10 = 10 ∧ blockArea demoBlk50 = 50 ∧ blockArea demoBlk5 = 5 ∧
    sortedBlocks [demoBlk10, demoBlk50, demoBlk5] = [demoBlk50, demoBlk10, demoBlk5] := by
  refine ⟨sortBlocksDesc_perm bs, sortBlocksDesc_pairwise bs,
    fun q => sortBlocksDesc_filter bs q,
    by norm_num [blockArea, demoBlk10],
    by norm_num [blockArea, demoBlk50],
    by norm_num [blockArea, demoBlk5],
    by norm_num [sortedBlocks, sortBlocksDesc, insertByArea, blockArea,
      demoBlk10, demoBlk50, demoBlk5]⟩

/-! ## Theorems: adapter input bytes (C9) -/

/-- C9 counterexample: for a PDF task the bytes the scheduler hands to
the analysis adapter are the raw file bytes, not the page-1, 2x scale,
0.95-quality JPEG the preview renderer produces, so the claimed
delegation to the Preview Renderer does not hold on PDF input. -/
theorem c9_counterexample :
    schedulerAdapterInput demoPdf ≠ loadPreviewBytes demoPdf ∧
    schedulerAdapterInput demoPdf = ImageBytes.fileData 0 ∧
    loadPreviewBytes demoPdf = ImageBytes.jpegRaster 0 1 2 (19 / 20) := by
  refine ⟨by decide, rfl, ?_⟩
  show ImageBytes.jpegRaster 0 1 2 0.95 = ImageBytes.jpegRaster 0 1 2 (19 / 20)
  norm_num

/-- C9 (amended): for every task, PDF or image alike, the scheduler
passes the raw original file bytes to the analysis adapter; the preview
renderer rasterizes page 1 of a PDF at 2x scale into a JPEG of 0.95
quality for display only, and passes image files through unchanged
(agreeing with the adapter input exactly in the image case). -/
theorem c9_adapter_bytes (f : SrcFile) :
    schedulerAdapterInput f = ImageBytes.fileData f.fid ∧
    loadPreviewBytes f =
      (if f.ftype = "application/pdf" then ImageBytes.jpegRaster f.fid 1 2 (19 / 20)
       else schedulerAdapterInput f) := by
  refine ⟨rfl, ?_⟩
  unfold loadPreviewBytes schedulerAdapterInput fileToBase64
  split
  · norm_num
  · rfl

/-! ## Theorems: scheduler helper lemmas -/

theorem patchTask_map_id (i : ℕ) (f : SchedTask → SchedTask)
    (hf : ∀ t, (f t).id = t.id) (ts : List SchedTask) :
    (patchTask i f ts).map SchedTask.id = ts.map SchedTask.id := by
  unfold patchTask
  rw [List.map_map]
  refine List.map_congr_left ?_
  intro t _
  by_cases h : t.id = i
  · simp [Function.comp, h, hf]
  · simp [Function.comp, h]

theorem mem_patchTask {t' : SchedTask} {i : ℕ} {f : SchedTask → SchedTask}
    {ts : List SchedTask} :
    t' ∈ patchTask i f ts ↔ ∃ u ∈ ts, t' = if u.id = i then f u else u := by
  unfold patchTask
  rw [List.mem_map]
  constructor
  · rintro ⟨u, hu, he⟩
    exact ⟨u, hu, he.symm⟩
  · rintro ⟨u, hu, he⟩
    exact ⟨u, hu, he.symm⟩

theorem patchTask_eq_self (i : ℕ) (f : SchedTask → SchedTask) (ts : List SchedTask)
    (h : ∀ t ∈ ts, t.id ≠ i) :
    patchTask i f ts = ts := by
  unfold patchTask
  have he : ∀ t ∈ ts, (if t.id = i then f t else t) = t := fun t ht => if_neg (h t ht)
  rw [List.map_congr_left he]
  simp

theorem processingCount_patch_keep (i : ℕ) (f : SchedTask → SchedTask)
    (ts : List SchedTask) (hf : ∀ t, (f t).status = t.status) :
    processingCount (patchTask i f ts) = processingCount ts := by
  induction ts with
  | nil => rfl
  | cons a ts ih =>
    unfold processingCount patchTask at *
    simp only [List.map_cons, List.countP_cons]
    by_cases h : a.id = i <;> simp [h, hf a, ih]

theorem processingCount_patch_countP (i : ℕ) (f : SchedTask → SchedTask)
    (ts : List SchedTask) :
    processingCount (patchTask i f ts) =
      ts.countP fun t =>
        decide ((if t.id = i then f t else t).status = TStatus.processing) := by
  unfold processingCount patchTask
  rw [List.countP_map]
  rfl

theorem processingCount_patch_kill (i : ℕ) (f : SchedTask → SchedTask)
    (ts : List SchedTask) (hf : ∀ t, (f t).status ≠ TStatus.processing) :
    processingCount (patchTask i f ts) ≤ processingCount ts := by
  rw [processingCount_patch_countP]
  refine List.countP_mono_left ?_
  intro t _ hp
  by_cases h : t.id = i
  · rw [if_pos h] at hp
    simp only [decide_eq_true_eq] at hp
    exact absurd hp (hf t)
  · rw [if_neg h] at hp
    exact hp

theorem countP_matchId_le_one (i : ℕ) (ts : List SchedTask)
    (hnd : (ts.map SchedTask.id).Nodup) :
    ts.countP (fun t => decide (t.id = i)) ≤ 1 := by
  induction ts with
  | nil => exact Nat.zero_le 1
  | cons a ts ih =>
    rw [List.map_cons, List.nodup_cons] at hnd
    rw [List.countP_cons]
    by_cases h : a.id = i
    · have hz : ts.countP (fun t => decide (t.id = i)) = 0 := by
        refine List.countP_eq_zero.mpr ?_
        intro t ht
        simp only [decide_eq_true_eq]
        intro hti
        exact hnd.1 (by rw [h, ← hti]; exact List.mem_map_of_mem SchedTask.id ht)
      simp [h, hz]
    · simp only [h, decide_False]
      simpa using ih hnd.2

theorem anyProcessing_false_iff (ts : List SchedTask) :
    anyProcessing ts = false ↔ ∀ t ∈ ts, t.status ≠ TStatus.processing := by
  unfold anyProcessing
  rw [List.any_eq_false]
  simp

theorem processingCount_eq_zero (ts : List SchedTask)
    (h : ∀ t ∈ ts, t.status ≠ TStatus.processing) :
    processingCount ts = 0 := by
  refine List.countP_eq_zero.mpr ?_
  intro t ht
  simpa using h t ht

theorem two_le_countP (p : SchedTask → Bool) (u v : SchedTask) (ts : List SchedTask)
    (hu : u ∈ ts) (hv : v ∈ ts) (hne : u ≠ v)
    (pu : p u = true) (pv : p v = true) : 2 ≤ ts.countP p := by
  induction ts with
  | nil => cases hu
  | cons a ts ih =>
    rw [List.countP_cons]
    rcases List.mem_cons.mp hu with rfl | hu'
    · have hv' : v ∈ ts := by
        rcases List.mem_cons.mp hv with h | h
        · exact absurd h.symm hne
        · exact h
      have hpos : 0 < ts.countP p := List.countP_pos_iff.mpr ⟨v, hv', pv⟩
      rw [if_pos pu]
      omega
    · rcases List.mem_cons.mp hv with rfl | hv'
      · have hpos : 0 < ts.countP p := List.countP_pos_iff.mpr ⟨u, hu', pu⟩
        rw [if_pos pv]
        omega
      · have := ih hu' hv'
        have hle : ts.countP p ≤ ts.countP p + if p a = true then 1 else 0 := Nat.le_add_right _ _
        omega

theorem mkTasks_mem (fs : List NewFile) (n : ℕ) (t : SchedTask)
    (ht : t ∈ mkTasks n fs) :
    t.status = TStatus.pending ∧ t.progress = 0 ∧ t.translatedBlocks = [] ∧
    n ≤ t.id ∧ t.id < n + fs.length := by
  induction fs generalizing n with
  | nil => cases ht
  | cons f fs ih =>
    rcases List.mem_cons.mp ht with rfl | ht'
    · refine ⟨rfl, rfl, rfl, le_refl _, ?_⟩
      show n < n + (fs.length + 1)
      omega
    · obtain ⟨h1, h2, h3, h4, h5⟩ := ih (n + 1) ht'
      refine ⟨h1, h2, h3, by omega, ?_⟩
      show t.id < n + (fs.length + 1)
      omega

theorem mkTasks_map_id (fs : List NewFile) (n : ℕ) :
    (mkTasks n fs).map SchedTask.id = List.range' n fs.length := by
  induction fs generalizing n with
  | nil => rfl
  | cons f fs ih =>
    show SchedTask.id (mkTask n f) :: (mkTasks (n + 1) fs).map SchedTask.id = _
    rw [ih (n + 1), List.length_cons, List.range'_succ]
    rfl

theorem task_eq_of_id {ts : List SchedTask} (hnd : (ts.map SchedTask.id).Nodup)
    {u v : SchedTask} (hu : u ∈ ts) (hv : v ∈ ts) (h : u.id = v.id) : u = v :=
  List.inj_on_of_nodup_map hnd hu hv h

theorem findPending_mem {ts : List SchedTask} {t : SchedTask}
    (h : findPending ts = some t) : t ∈ ts ∧ t.status = TStatus.pending := by
  refine ⟨List.mem_of_find?_eq_some h, ?_⟩
  have := List.find?_some h
  simpa using this

theorem processingCount_patch_start_le_one (i : ℕ) (ts : List SchedTask)
    (h0 : ∀ t ∈ ts, t.status ≠ TStatus.processing)
    (hnd : (ts.map SchedTask.id).Nodup) :
    processingCount (patchTask i startPatch ts) ≤ 1 := by
  rw [processingCount_patch_countP]
  refine le_trans (List.countP_mono_left ?_) (countP_matchId_le_one i ts hnd)
  intro t ht hp
  by_cases h : t.id = i
  · simp [h]
  · rw [if_neg h] at hp
    simp only [decide_eq_true_eq] at hp
    exact absurd hp (h0 t ht)

theorem schedInv_step {s s' : Sys} (hinv : SchedInv s) (hs : SchedStep s s') :
    SchedInv s' := by
  obtain ⟨hnd, hidlt, hcnt, htid, hlink, hpend⟩ := hinv
  cases hs with
  | submit fs =>
    simp only [SchedInv, submitState]
    refine ⟨?_, ?_, ?_, ?_, ?_, ?_⟩
    · rw [List.map_append, mkTasks_map_id, List.nodup_append]
      refine ⟨hnd, List.nodup_range' _ _, ?_⟩
      intro a ha ha'
      obtain ⟨t, ht, rfl⟩ := List.mem_map.mp ha
      have h1 : t.id < s.nextId := hidlt t ht
      have h2 := List.mem_range'_1.mp ha'
      omega
    · intro t ht
      rcases List.mem_append.mp ht with ht' | ht'
      · have := hidlt t ht'
        omega
      · have := (mkTasks_mem fs s.nextId t ht').2.2.2.2
        omega
    · unfold processingCount
      rw [List.countP_append]
      have hz : processingCount (mkTasks s.nextId fs) = 0 := by
        refine processingCount_eq_zero _ ?_
        intro t ht
        rw [(mkTasks_mem fs s.nextId t ht).1]
        simp
      unfold processingCount at hz hcnt
      omega
    · intro i p hp
      have := htid i p hp
      omega
    · intro i p hp hact t ht hti
      rcases List.mem_append.mp ht with ht' | ht'
      · exact hlink i p hp hact t ht' hti
      · have h1 := (mkTasks_mem fs s.nextId t ht').2.2.2.1
        have h2 := htid i p hp
        omega
    · intro t ht hp
      rcases List.mem_append.mp ht with ht' | ht'
      · exact hpend t ht' hp
      · have := mkTasks_mem fs s.nextId t ht'
        exact ⟨this.2.1, this.2.2.1⟩
  | remove i =>
    have hsub : (s.tasks.filter fun u => decide (u.id ≠ i)).Sublist s.tasks :=
      List.filter_sublist s.tasks
    simp only [SchedInv, removeState]
    refine ⟨?_, ?_, ?_, htid, ?_, ?_⟩
    · exact (hsub.map SchedTask.id).nodup hnd
    · intro t ht
      exact hidlt t (hsub.mem ht)
    · exact le_trans (hsub.countP_le _) hcnt
    · intro j p hp hact t ht hti
      exact hlink j p hp hact t (hsub.mem ht) hti
    · intro t ht hp
      exact hpend t (hsub.mem ht) hp
  | start t hg hf =>
    obtain ⟨htm, htp⟩ := findPending_mem hf
    have h0 : ∀ u ∈ s.tasks, u.status ≠ TStatus.processing :=
      (anyProcessing_false_iff s.tasks).mp hg
    simp only [SchedInv, startState]
    refine ⟨?_, ?_, ?_, ?_, ?_, ?_⟩
    · rw [patchTask_map_id t.id startPatch (fun _ => rfl) s.tasks]
      exact hnd
    · intro t' ht'
      obtain ⟨u, hu, he⟩ := mem_patchTask.mp ht'
      have hid : t'.id = u.id := by
        rw [he]
        split <;> rfl
      rw [hid]
      exact hidlt u hu
    · exact processingCount_patch_start_le_one t.id s.tasks h0 hnd
    · intro j p hp
      by_cases hj : j = t.id
      · rw [hj]
        exact hidlt t htm
      · rw [Function.update_noteq hj] at hp
        exact htid j p hp
    · intro j p hp hact t' ht' hti
      obtain ⟨u, hu, he⟩ := mem_patchTask.mp ht'
      by_cases hj : j = t.id
      · subst hj
        rw [Function.update_same] at hp
        injection hp with hp'
        subst hp'
        by_cases hui : u.id = t.id
        · have hut : u = t := task_eq_of_id hnd hu htm hui
          subst hut
          rw [if_pos hui] at he
          subst he
          refine ⟨rfl, rfl, ?_⟩
          show (startPatch u).translatedBlocks = []
          exact (hpend u hu htp).2
        · rw [if_neg hui] at he
          subst he
          exact absurd hti hui
      · rw [Function.update_noteq hj] at hp
        by_cases hui : u.id = t.id
        · rw [if_pos hui] at he
          have h1 : t'.id = t.id := by
            rw [he]
            exact hui
          exact absurd (hti.symm.trans h1) hj
        · rw [if_neg hui] at he
          subst he
          exact absurd (hlink j p hp hact t' hu hti).1 (h0 t' hu)
    · intro t' ht' hp
      obtain ⟨u, hu, he⟩ := mem_patchTask.mp ht'
      by_cases hui : u.id = t.id
      · rw [if_pos hui] at he
        rw [he] at hp
        cases hp
      · rw [if_neg hui] at he
        subst he
        exact hpend t' hu hp
  | readBytes i h =>
    simp only [SchedInv, readBytesState]
    refine ⟨?_, ?_, ?_, ?_, ?_, ?_⟩
    · rw [patchTask_map_id i analyzePatch (fun _ => rfl) s.tasks]
      exact hnd
    · intro t' ht'
      obtain ⟨u, hu, he⟩ := mem_patchTask.mp ht'
      have hid : t'.id = u.id := by
        rw [he]
        split <;> rfl
      rw [hid]
      exact hidlt u hu
    · rw [processingCount_patch_keep i analyzePatch s.tasks (fun _ => rfl)]
      exact hcnt
    · intro j p hp
      by_cases hj : j = i
      · rw [hj]
        exact htid i PC.started h
      · rw [Function.update_noteq hj] at hp
        exact htid j p hp
    · intro j p hp hact t' ht' hti
      obtain ⟨u, hu, he⟩ := mem_patchTask.mp ht'
      by_cases hj : j = i
      · subst hj
        rw [Function.update_same] at hp
        injection hp with hp'
        subst hp'
        by_cases hui : u.id = j
        · have hl := hlink j PC.started h rfl u hu hui
          rw [if_pos hui] at he
          subst he
          exact ⟨hl.1, rfl, hl.2.2⟩
        · rw [if_neg hui] at he
          subst he
          exact absurd hti hui
      · rw [Function.update_noteq hj] at hp
        by_cases hui : u.id = i
        · rw [if_pos hui] at he
          have h1 : t'.id = i := by
            rw [he]
            exact hui
          exact absurd (hti.symm.trans h1) hj
        · rw [if_neg hui] at he
          subst he
          exact hlink j p hp hact t' hu hti
    · intro t' ht' hp'
      obtain ⟨u, hu, he⟩ := mem_patchTask.mp ht'
      by_cases hui : u.id = i
      · have hl := hlink i PC.started h rfl u hu hui
        rw [if_pos hui] at he
        subst he
        rw [show (analyzePatch u).status = u.status from rfl, hl.1] at hp'
        cases hp'
      · rw [if_neg hui] at he
        subst he
        exact hpend t' hu hp'
  | fail i p msg h hp0 =>
    simp only [SchedInv, failState]
    refine ⟨?_, ?_, ?_, ?_, ?_, ?_⟩
    · rw [patchTask_map_id i (failPatch msg) (fun _ => rfl) s.tasks]
      exact hnd
    · intro t' ht'
      obtain ⟨u, hu, he⟩ := mem_patchTask.mp ht'
      have hid : t'.id = u.id := by
        rw [he]
        split <;> rfl
      rw [hid]
      exact hidlt u hu
    · refine le_trans (processingCount_patch_kill i (failPatch msg) s.tasks ?_) hcnt
      intro t ht
      cases ht
    · intro j p' hp'
      by_cases hj : j = i
      · rw [hj]
        exact htid i p h
      · rw [Function.update_noteq hj] at hp'
        exact htid j p' hp'
    · intro j p' hp' hact t' ht' hti
      obtain ⟨u, hu, he⟩ := mem_patchTask.mp ht'
      by_cases hj : j = i
      · subst hj
        rw [Function.update_same] at hp'
        injection hp' with hpe
        subst hpe
        simp [PC.isActive] at hact
      · rw [Function.update_noteq hj] at hp'
        by_cases hui : u.id = i
        · rw [if_pos hui] at he
          have h1 : t'.id = i := by
            rw [he]
            exact hui
          exact absurd (hti.symm.trans h1) hj
        · rw [if_neg hui] at he
          subst he
          exact hlink j p' hp' hact t' hu hti
    · intro t' ht' hp'
      obtain ⟨u, hu, he⟩ := mem_patchTask.mp ht'
      by_cases hui : u.id = i
      · rw [if_pos hui] at he
        rw [he] at hp'
        cases hp'
      · rw [if_neg hui] at he
        subst he
        exact hpend t' hu hp'
  | analyzeOk i bs h =>
    simp only [SchedInv, analyzeOkState]
    refine ⟨?_, ?_, ?_, ?_, ?_, ?_⟩
    · rw [patchTask_map_id i streamInitPatch (fun _ => rfl) s.tasks]
      exact hnd
    · intro t' ht'
      obtain ⟨u, hu, he⟩ := mem_patchTask.mp ht'
      have hid : t'.id = u.id := by
        rw [he]
        split <;> rfl
      rw [hid]
      exact hidlt u hu
    · rw [processingCount_patch_keep i streamInitPatch s.tasks (fun _ => rfl)]
      exact hcnt
    · intro j p' hp'
      by_cases hj : j = i
      · rw [hj]
        exact htid i PC.analyzed h
      · rw [Function.update_noteq hj] at hp'
        exact htid j p' hp'
    · intro j p' hp' hact t' ht' hti
      obtain ⟨u, hu, he⟩ := mem_patchTask.mp ht'
      by_cases hj : j = i
      · subst hj
        rw [Function.update_same] at hp'
        injection hp' with hpe
        subst hpe
        by_cases hui : u.id = j
        · have hl := hlink j PC.analyzed h rfl u hu hui
          rw [if_pos hui] at he
          subst he
          refine ⟨hl.1, Nat.zero_le _, ?_, ?_⟩
          · show (streamInitPatch u).translatedBlocks.length = 0
            rw [show (streamInitPatch u).translatedBlocks = u.translatedBlocks from rfl,
              hl.2.2]
            rfl
          · show (streamInitPatch u).progress = if 0 = 0 then 20 else _
            rw [if_pos rfl]
            exact hl.2.1
        · rw [if_neg hui] at he
          subst he
          exact absurd hti hui
      · rw [Function.update_noteq hj] at hp'
        by_cases hui : u.id = i
        · rw [if_pos hui] at he
          have h1 : t'.id = i := by
            rw [he]
            exact hui
          exact absurd (hti.symm.trans h1) hj
        · rw [if_neg hui] at he
          subst he
          exact hlink j p' hp' hact t' hu hti
    · intro t' ht' hp'
      obtain ⟨u, hu, he⟩ := mem_patchTask.mp ht'
      by_cases hui : u.id = i
      · have hl := hlink i PC.analyzed h rfl u hu hui
        rw [if_pos hui] at he
        subst he
        rw [show (streamInitPatch u).status = u.status from rfl, hl.1] at hp'
        cases hp'
      · rw [if_neg hui] at he
        subst he
        exact hpend t' hu hp'
  | streamOne i bs k h hk =>
    simp only [SchedInv, streamOneState]
    refine ⟨?_, ?_, ?_, ?_, ?_, ?_⟩
    · rw [patchTask_map_id i (blockPatch (bs.get ⟨k, hk⟩) k bs.length)
        (fun _ => rfl) s.tasks]
      exact hnd
    · intro t' ht'
      obtain ⟨u, hu, he⟩ := mem_patchTask.mp ht'
      have hid : t'.id = u.id := by
        rw [he]
        split <;> rfl
      rw [hid]
      exact hidlt u hu
    · rw [processingCount_patch_keep i (blockPatch (bs.get ⟨k, hk⟩) k bs.length)
        s.tasks (fun _ => rfl)]
      exact hcnt
    · intro j p' hp'
      by_cases hj : j = i
      · rw [hj]
        exact htid i (PC.streaming bs k) h
      · rw [Function.update_noteq hj] at hp'
        exact htid j p' hp'
    · intro j p' hp' hact t' ht' hti
      obtain ⟨u, hu, he⟩ := mem_patchTask.mp ht'
      by_cases hj : j = i
      · subst hj
        rw [Function.update_same] at hp'
        injection hp' with hpe
        subst hpe
        by_cases hui : u.id = j
        · have hl := hlink j (PC.streaming bs k) h rfl u hu hui
          rw [if_pos hui] at he
          subst he
          refine ⟨hl.1, by omega, ?_, ?_⟩
          · show (u.translatedBlocks ++ [toTranslatedBlock (bs.get ⟨k, hk⟩)]).length = k + 1
            rw [List.length_append, hl.2.2.1]
            rfl
          · show streamProgress k bs.length = if k + 1 = 0 then 20 else 30 + 60 * (k + 1) / bs.length
            rw [if_neg (Nat.succ_ne_zero k)]
            rfl
        · rw [if_neg hui] at he
          subst he
          exact absurd hti hui
      · rw [Function.update_noteq hj] at hp'
        by_cases hui : u.id = i
        · rw [if_pos hui] at he
          have h1 : t'.id = i := by
            rw [he]
            exact hui
          exact absurd (hti.symm.trans h1) hj
        · rw [if_neg hui] at he
          subst he
          exact hlink j p' hp' hact t' hu hti
    · intro t' ht' hp'
      obtain ⟨u, hu, he⟩ := mem_patchTask.mp ht'
      by_cases hui : u.id = i
      · have hl := hlink i (PC.streaming bs k) h rfl u hu hui
        rw [if_pos hui] at he
        subst he
        rw [show (blockPatch (bs.get ⟨k, hk⟩) k bs.length u).status = u.status from rfl,
          hl.1] at hp'
        cases hp'
      · rw [if_neg hui] at he
        subst he
        exact hpend t' hu hp'
  | complete i bs h =>
    simp only [SchedInv, completeState]
    refine ⟨?_, ?_, ?_, ?_, ?_, ?_⟩
    · rw [patchTask_map_id i completePatch (fun _ => rfl) s.tasks]
      exact hnd
    · intro t' ht'
      obtain ⟨u, hu, he⟩ := mem_patchTask.mp ht'
      have hid : t'.id = u.id := by
        rw [he]
        split <;> rfl
      rw [hid]
      exact hidlt u hu
    · refine le_trans (processingCount_patch_kill i completePatch s.tasks ?_) hcnt
      intro t ht
      cases ht
    · intro j p' hp'
      by_cases hj : j = i
      · rw [hj]
        exact htid i (PC.streaming bs bs.length) h
      · rw [Function.update_noteq hj] at hp'
        exact htid j p' hp'
    · intro j p' hp' hact t' ht' hti
      obtain ⟨u, hu, he⟩ := mem_patchTask.mp ht'
      by_cases hj : j = i
      · subst hj
        rw [Function.update_same] at hp'
        injection hp' with hpe
        subst hpe
        simp [PC.isActive] at hact
      · rw [Function.update_noteq hj] at hp'
        by_cases hui : u.id = i
        · rw [if_pos hui] at he
          have h1 : t'.id = i := by
            rw [he]
            exact hui
          exact absurd (hti.symm.trans h1) hj
        · rw [if_neg hui] at he
          subst he
          exact hlink j p' hp' hact t' hu hti
    · intro t' ht' hp'
      obtain ⟨u, hu, he⟩ := mem_patchTask.mp ht'
      by_cases hui : u.id = i
      · rw [if_pos hui] at he
        rw [he] at hp'
        cases hp'
      · rw [if_neg hui] at he
        subst he
        exact hpend t' hu hp'

theorem schedInv_init : SchedInv initSys := by
  refine ⟨List.nodup_nil, ?_, Nat.zero_le 1, ?_, ?_, ?_⟩
  · intro t ht
    cases ht
  · intro i p hp
    cases hp
  · intro i p hp
    cases hp
  · intro t ht
    cases ht

theorem schedReachable_inv {s : Sys} (h : SchedReachable s) : SchedInv s := by
  induction h with
  | refl => exact schedInv_init
  | tail _ hstep ih => exact schedInv_step ih hstep

theorem patchTask_absent {i : ℕ} (f : SchedTask → SchedTask) {ts : List SchedTask}
    (h : i ∉ ts.map SchedTask.id) :
    patchTask i f ts = ts := by
  refine patchTask_eq_self i f ts ?_
  intro t ht hti
  exact h (by rw [← hti]; exact List.mem_map_of_mem SchedTask.id ht)

theorem idAbsent_step {i : ℕ} {s s' : Sys} (hstep : SchedStep s s')
    (ha : IdAbsent i s) : IdAbsent i s' := by
  obtain ⟨hmem, hlt⟩ := ha
  cases hstep with
  | submit fs =>
    refine ⟨?_, ?_⟩
    · simp only [submitState]
      rw [List.map_append, mkTasks_map_id]
      intro hin
      rcases List.mem_append.mp hin with h1 | h1
      · exact hmem h1
      · have := List.mem_range'_1.mp h1
        omega
    · simp only [submitState]
      omega
  | remove j =>
    refine ⟨?_, hlt⟩
    simp only [removeState]
    intro hin
    obtain ⟨u, hu, hui⟩ := List.mem_map.mp hin
    exact hmem (List.mem_map.mpr ⟨u, List.mem_of_mem_filter hu, hui⟩)
  | start t hg hf =>
    refine ⟨?_, hlt⟩
    simp only [startState]
    rw [patchTask_map_id t.id startPatch (fun _ => rfl)]
    exact hmem
  | readBytes j h =>
    refine ⟨?_, hlt⟩
    simp only [readBytesState]
    rw [patchTask_map_id j analyzePatch (fun _ => rfl)]
    exact hmem
  | fail j p msg h hp0 =>
    refine ⟨?_, hlt⟩
    simp only [failState]
    rw [patchTask_map_id j (failPatch msg) (fun _ => rfl)]
    exact hmem
  | analyzeOk j bs h =>
    refine ⟨?_, hlt⟩
    simp only [analyzeOkState]
    rw [patchTask_map_id j streamInitPatch (fun _ => rfl)]
    exact hmem
  | streamOne j bs k h hk =>
    refine ⟨?_, hlt⟩
    simp only [streamOneState]
    rw [patchTask_map_id j (blockPatch (bs.get ⟨k, hk⟩) k bs.length) (fun _ => rfl)]
    exact hmem
  | complete j bs h =>
    refine ⟨?_, hlt⟩
    simp only [completeState]
    rw [patchTask_map_id j completePatch (fun _ => rfl)]
    exact hmem

theorem idAbsent_steps {i : ℕ} {s s' : Sys}
    (h : Relation.ReflTransGen SchedStep s s') (ha : IdAbsent i s) : IdAbsent i s' := by
  induction h with
  | refl => exact ha
  | tail _ hstep ih => exact idAbsent_step hstep ih

theorem reach_run1 : SchedReachable run1 :=
  Relation.ReflTransGen.single (SchedStep.submit run0 [file1])

theorem reach_run2 : SchedReachable run2 :=
  reach_run1.tail (SchedStep.start run1 task1 rfl rfl)

theorem reach_run3 : SchedReachable run3 :=
  reach_run2.tail (SchedStep.readBytes run2 0 rfl)

theorem reach_run4 : SchedReachable run4 :=
  reach_run3.tail (SchedStep.analyzeOk run3 0 bsDemo rfl)

theorem reach_run5 : SchedReachable run5 :=
  reach_run4.tail (SchedStep.streamOne run4 0 bsDemo 0 rfl (by decide))

theorem reach_run6 : SchedReachable run6 :=
  reach_run5.tail (SchedStep.streamOne run5 0 bsDemo 1 rfl (by decide))

theorem reach_run7 : SchedReachable run7 :=
  reach_run6.tail (SchedStep.streamOne run6 0 bsDemo 2 rfl (by decide))

theorem reach_run8 : SchedReachable run8 :=
  reach_run7.tail (SchedStep.complete run7 0 bsDemo rfl)

theorem reach_w1 : SchedReachable w1 :=
  Relation.ReflTransGen.single (SchedStep.submit run0 [file1, file2])

theorem reach_w2 : SchedReachable w2 :=
  reach_w1.tail (SchedStep.start w1 task1 rfl rfl)

theorem reach_w3 : SchedReachable w3 :=
  reach_w2.tail (SchedStep.readBytes w2 0 rfl)

/-! ## Theorems: scheduler claims -/

/-- C2: whenever the driver re-evaluates it starts the pipeline for a
pending task only if no task is currently processing (the admission
guard of the start transition), so in every reachable state at most one
task has the processing status (the code status covering the spec
statuses Analyzing and Streaming). -/
theorem c2_single_worker (s : Sys) (hr : SchedReachable s) :
    processingCount s.tasks ≤ 1 :=
  (schedReachable_inv hr).2.2.1

/-- Witness for C2 at the concrete reachable state run2. -/
theorem c2_single_worker_witness :
    SchedReachable run2 ∧ processingCount run2.tasks ≤ 1 :=
  ⟨reach_run2, c2_single_worker run2 reach_run2⟩

/-- C1 counterexample: a complete three-block run in which the progress
of the task takes exactly the values 0, 5, 20, 50, 70, 90, 100 and is
never 30 — refuting the claimed progress trace 30, 50, 70, 90 for
N = 3 (the code jumps from 20 to 50, writing 30 + floor(60 * i / 3)
only for i = 1, 2, 3). -/
theorem c1_counterexample :
    SchedStep run0 run1 ∧ SchedStep run1 run2 ∧ SchedStep run2 run3 ∧
    SchedStep run3 run4 ∧ SchedStep run4 run5 ∧ SchedStep run5 run6 ∧
    SchedStep run6 run7 ∧ SchedStep run7 run8 ∧
    bsDemo.length = 3 ∧
    [progressAt run1 0, progressAt run2 0, progressAt run3 0, progressAt run4 0,
      progressAt run5 0, progressAt run6 0, progressAt run7 0, progressAt run8 0] =
      [some 0, some 5, some 20, some 20, some 50, some 70, some 90, some 100] ∧
    some 30 ∉
      [progressAt run1 0, progressAt run2 0, progressAt run3 0, progressAt run4 0,
        progressAt run5 0, progressAt run6 0, progressAt run7 0, progressAt run8 0] :=
  ⟨SchedStep.submit run0 [file1], SchedStep.start run1 task1 rfl rfl,
    SchedStep.readBytes run2 0 rfl, SchedStep.analyzeOk run3 0 bsDemo rfl,
    SchedStep.streamOne run4 0 bsDemo 0 rfl (by decide),
    SchedStep.streamOne run5 0 bsDemo 1 rfl (by decide),
    SchedStep.streamOne run6 0 bsDemo 2 rfl (by decide),
    SchedStep.complete run7 0 bsDemo rfl,
    by decide, by decide, by decide⟩

/-- C1 (amended): in any reachable state, appending streamed block k
(0-based) of the N blocks returned by the adapter writes exactly
progress = 30 + floor(60 * (k + 1) / N) to the task, the task then
holds k + 1 blocks, and after the last block (k + 1 = N) the progress
is 90, before the later Completed transition sets 100.  For N = 3 the
written values are 50, 70, 90: the progress never equals 30. -/
theorem c1_stream_progress (s : Sys) (i : ℕ) (bs : List BlockData) (k : ℕ)
    (hr : SchedReachable s) (h : s.threads i = some (PC.streaming bs k))
    (hk : k < bs.length) (t' : SchedTask)
    (ht' : t' ∈ (streamOneState s i bs k hk).tasks) (hti : t'.id = i) :
    t'.translatedBlocks.length = k + 1 ∧
    t'.progress = 30 + 60 * (k + 1) / bs.length ∧
    (k + 1 = bs.length → t'.progress = 90) := by
  obtain ⟨hnd, hidlt, hcnt, htid, hlink, hpend⟩ := schedReachable_inv hr
  simp only [streamOneState] at ht'
  obtain ⟨u, hu, he⟩ := mem_patchTask.mp ht'
  by_cases hui : u.id = i
  · have hl := hlink i (PC.streaming bs k) h rfl u hu hui
    rw [if_pos hui] at he
    subst he
    refine ⟨?_, rfl, ?_⟩
    · show (u.translatedBlocks ++ [toTranslatedBlock (bs.get ⟨k, hk⟩)]).length = k + 1
      rw [List.length_append, hl.2.2.1]
      rfl
    · intro hkn
      show streamProgress k bs.length = 90
      unfold streamProgress
      rw [hkn, Nat.mul_div_cancel 60 (by omega)]
  · rw [if_neg hui] at he
    subst he
    exact absurd hti hui

/-- Witness for the amended C1 at run4: appending block 1 of 3 stores
one block and writes progress 50. -/
theorem c1_stream_progress_witness :
    SchedReachable run4 ∧ run4.threads 0 = some (PC.streaming bsDemo 0) ∧
    0 < bsDemo.length ∧ run5Task ∈ run5.tasks ∧ run5Task.id = 0 ∧
    run5Task.translatedBlocks.length = 1 ∧ run5Task.progress = 50 := by
  have h := c1_stream_progress run4 0 bsDemo 0 reach_run4 rfl (by decide)
    run5Task (by decide) rfl
  exact ⟨reach_run4, rfl, by decide, by decide, rfl, h.1, h.2.1⟩

/-- C6: progress is monotonically non-decreasing across every
transition: whenever a step leads from a reachable state to a successor
and a task with a given id occurs in both, its progress did not
decrease (submission writes 0, the pipeline writes 5, 20, the
increasing streaming values, then 100; the failure patch leaves
progress untouched). -/
theorem c6_progress_monotone (s s' : Sys) (hr : SchedReachable s)
    (hs : SchedStep s s') (t t' : SchedTask)
    (ht : t ∈ s.tasks) (ht' : t' ∈ s'.tasks) (hid : t'.id = t.id) :
    t.progress ≤ t'.progress := by
  obtain ⟨hnd, hidlt, hcnt, htid, hlink, hpend⟩ := schedReachable_inv hr
  cases hs with
  | submit fs =>
    simp only [submitState] at ht'
    rcases List.mem_append.mp ht' with h1 | h1
    · rw [task_eq_of_id hnd ht h1 hid.symm]
    · have h2 := (mkTasks_mem fs s.nextId t' h1).2.2.2.1
      have h3 := hidlt t ht
      omega
  | remove j =>
    simp only [removeState] at ht'
    have h1 := List.mem_of_mem_filter ht'
    rw [task_eq_of_id hnd ht h1 hid.symm]
  | start tp hg hf =>
    obtain ⟨htm, htp⟩ := findPending_mem hf
    simp only [startState] at ht'
    obtain ⟨u, hu, he⟩ := mem_patchTask.mp ht'
    have hut : u = t := by
      refine task_eq_of_id hnd hu ht ?_
      have : t'.id = u.id := by
        rw [he]
        split <;> rfl
      rw [← this, hid]
    subst hut
    by_cases hui : u.id = tp.id
    · rw [if_pos hui] at he
      subst he
      have hutp : u = tp := task_eq_of_id hnd hu htm hui
      subst hutp
      rw [(hpend u hu htp).1]
      exact Nat.zero_le _
    · rw [if_neg hui] at he
      subst he
      exact le_refl _
  | readBytes j h =>
    simp only [readBytesState] at ht'
    obtain ⟨u, hu, he⟩ := mem_patchTask.mp ht'
    have hut : u = t := by
      refine task_eq_of_id hnd hu ht ?_
      have : t'.id = u.id := by
        rw [he]
        split <;> rfl
      rw [← this, hid]
    subst hut
    by_cases hui : u.id = j
    · rw [if_pos hui] at he
      subst he
      have hl := hlink j PC.started h rfl u hu hui
      rw [hl.2.1]
      show 5 ≤ 20
      omega
    · rw [if_neg hui] at he
      subst he
      exact le_refl _
  | fail j p msg h hp0 =>
    simp only [failState] at ht'
    obtain ⟨u, hu, he⟩ := mem_patchTask.mp ht'
    have hut : u = t := by
      refine task_eq_of_id hnd hu ht ?_
      have : t'.id = u.id := by
        rw [he]
        split <;> rfl
      rw [← this, hid]
    subst hut
    by_cases hui : u.id = j
    · rw [if_pos hui] at he
      subst he
      exact le_refl _
    · rw [if_neg hui] at he
      subst he
      exact le_refl _
  | analyzeOk j bs h =>
    simp only [analyzeOkState] at ht'
    obtain ⟨u, hu, he⟩ := mem_patchTask.mp ht'
    have hut : u = t := by
      refine task_eq_of_id hnd hu ht ?_
      have : t'.id = u.id := by
        rw [he]
        split <;> rfl
      rw [← this, hid]
    subst hut
    by_cases hui : u.id = j
    · rw [if_pos hui] at he
      subst he
      exact le_refl _
    · rw [if_neg hui] at he
      subst he
      exact le_refl _
  | streamOne j bs k h hk =>
    simp only [streamOneState] at ht'
    obtain ⟨u, hu, he⟩ := mem_patchTask.mp ht'
    have hut : u = t := by
      refine task_eq_of_id hnd hu ht ?_
      have : t'.id = u.id := by
        rw [he]
        split <;> rfl
      rw [← this, hid]
    subst hut
    by_cases hui : u.id = j
    · rw [if_pos hui] at he
      subst he
      have hl := hlink j (PC.streaming bs k) h rfl u hu hui
      rw [hl.2.2.2]
      show _ ≤ streamProgress k bs.length
      unfold streamProgress
      by_cases hk0 : k = 0
      · rw [if_pos hk0]
        exact le_trans (by omega) (Nat.le_add_right 30 _)
      · rw [if_neg hk0]
        have : 60 * k / bs.length ≤ 60 * (k + 1) / bs.length :=
          Nat.div_le_div_right (by omega)
        omega
    · rw [if_neg hui] at he
      subst he
      exact le_refl _
  | complete j bs h =>
    simp only [completeState] at ht'
    obtain ⟨u, hu, he⟩ := mem_patchTask.mp ht'
    have hut : u = t := by
      refine task_eq_of_id hnd hu ht ?_
      have : t'.id = u.id := by
        rw [he]
        split <;> rfl
      rw [← this, hid]
    subst hut
    by_cases hui : u.id = j
    · rw [if_pos hui] at he
      subst he
      have hl := hlink j (PC.streaming bs bs.length) h rfl u hu hui
      show u.progress ≤ 100
      rw [hl.2.2.2]
      by_cases hb0 : bs.length = 0
      · rw [if_pos hb0]
        omega
      · rw [if_neg hb0]
        rw [Nat.mul_div_cancel 60 (by omega)]
        omega
    · rw [if_neg hui] at he
      subst he
      exact le_refl _

/-- Witness for C6 at the streaming step from run4 to run5: progress
goes from 20 to 50. -/
theorem c6_progress_monotone_witness :
    SchedReachable run4 ∧ SchedStep run4 run5 ∧ run4Task ∈ run4.tasks ∧
    run5Task ∈ run5.tasks ∧ run5Task.id = run4Task.id ∧
    run4Task.progress = 20 ∧ run5Task.progress = 50 ∧
    run4Task.progress ≤ run5Task.progress :=
  ⟨reach_run4, SchedStep.streamOne run4 0 bsDemo 0 rfl (by decide), by decide,
    by decide, rfl, rfl, rfl,
    c6_progress_monotone run4 run5 reach_run4
      (SchedStep.streamOne run4 0 bsDemo 0 rfl (by decide))
      run4Task run5Task (by decide) (by decide) rfl⟩

/-- C7: when the pipeline of an existing task catches an error (file
read failure from the started position, adapter rejection or malformed
response from the analyzed position), the task becomes error with
exactly one warning message, no other task is processing afterwards
(the batch is not halted), and the driver start transition is enabled
for whichever task findPending then selects. -/
theorem c7_failure_isolation (s : Sys) (i : ℕ) (p : PC) (msg : String)
    (t : SchedTask) (hr : SchedReachable s) (h : s.threads i = some p)
    (hp : p = PC.started ∨ p = PC.analyzed)
    (ht : t ∈ s.tasks) (hti : t.id = i) :
    failPatch msg t ∈ (failState s i msg).tasks ∧
    (failPatch msg t).status = TStatus.error ∧
    (failPatch msg t).warnings.length = 1 ∧
    anyProcessing (failState s i msg).tasks = false ∧
    (∀ tp, findPending (failState s i msg).tasks = some tp →
      SchedStep (failState s i msg) (startState (failState s i msg) tp)) := by
  obtain ⟨hnd, hidlt, hcnt, htid, hlink, hpend⟩ := schedReachable_inv hr
  have hact : p.isActive = true := by
    rcases hp with rfl | rfl <;> rfl
  have hl := hlink i p h hact t ht hti
  have hno : anyProcessing (failState s i msg).tasks = false := by
    rw [anyProcessing_false_iff]
    intro t' ht'
    simp only [failState] at ht'
    obtain ⟨u, hu, he⟩ := mem_patchTask.mp ht'
    by_cases hui : u.id = i
    · rw [if_pos hui] at he
      rw [he]
      intro hc
      cases hc
    · rw [if_neg hui] at he
      subst he
      intro hupr
      have hne : t' ≠ t := by
        intro he
        rw [he] at hui
        exact hui hti
      have h2 : 2 ≤ processingCount s.tasks := by
        refine two_le_countP _ t' t s.tasks hu ht hne ?_ ?_
        · simp [hupr]
        · simp [hl.1]
      omega
  refine ⟨?_, rfl, rfl, hno, ?_⟩
  · show failPatch msg t ∈ patchTask i (failPatch msg) s.tasks
    refine mem_patchTask.mpr ⟨t, ht, ?_⟩
    rw [if_pos hti]
  · intro tp hfp
    exact SchedStep.start (failState s i msg) tp hno hfp

/-- Witness for C7 at the two-file state w3: failing the analyzed task 0
marks it error with one warning and enables the start of pending task 1. -/
theorem c7_failure_isolation_witness :
    SchedReachable w3 ∧ w3.threads 0 = some PC.analyzed ∧ w3Task ∈ w3.tasks ∧
    w3Task.id = 0 ∧
    failPatch "Analysis failed" w3Task ∈ (failState w3 0 "Analysis failed").tasks ∧
    (failPatch "Analysis failed" w3Task).status = TStatus.error ∧
    (failPatch "Analysis failed" w3Task).warnings.length = 1 ∧
    anyProcessing (failState w3 0 "Analysis failed").tasks = false ∧
    SchedStep (failState w3 0 "Analysis failed")
      (startState (failState w3 0 "Analysis failed") task2) := by
  have h := c7_failure_isolation w3 0 PC.analyzed "Analysis failed" w3Task
    reach_w3 rfl (Or.inr rfl) (by decide) rfl
  exact ⟨reach_w3, rfl, by decide, rfl, h.1, h.2.1, h.2.2.1, h.2.2.2.1,
    h.2.2.2.2 task2 (by decide)⟩

/-- C8: removing the task that is currently processing is always a
legal transition; afterwards no task is processing any more, so the
driver start transition is enabled for the next pending task; and in
every state reachable from the removal the removed id does not occur in
the task list and every keyed-by-id update for it (the writes of the
abandoned pipeline) leaves the task list unchanged. -/
theorem c8_cancellation (s : Sys) (t : SchedTask) (hr : SchedReachable s)
    (ht : t ∈ s.tasks) (hproc : t.status = TStatus.processing) :
    SchedStep s (removeState s t.id) ∧
    anyProcessing (removeState s t.id).tasks = false ∧
    (∀ tp, findPending (removeState s t.id).tasks = some tp →
      SchedStep (removeState s t.id) (startState (removeState s t.id) tp)) ∧
    (∀ s'', Relation.ReflTransGen SchedStep (removeState s t.id) s'' →
      t.id ∉ s''.tasks.map SchedTask.id ∧
      ∀ f : SchedTask → SchedTask, patchTask t.id f s''.tasks = s''.tasks) := by
  obtain ⟨hnd, hidlt, hcnt, htid, hlink, hpend⟩ := schedReachable_inv hr
  have hno : anyProcessing (removeState s t.id).tasks = false := by
    rw [anyProcessing_false_iff]
    intro t' ht'
    simp only [removeState] at ht'
    rw [List.mem_filter] at ht'
    have hne : t' ≠ t := by
      intro he
      have := ht'.2
      rw [he] at this
      simp at this
    intro hupr
    have h2 : 2 ≤ processingCount s.tasks := by
      refine two_le_countP _ t' t s.tasks ht'.1 ht hne ?_ ?_
      · simp [hupr]
      · simp [hproc]
    omega
  have habs : IdAbsent t.id (removeState s t.id) := by
    refine ⟨?_, hidlt t ht⟩
    simp only [removeState]
    intro hin
    obtain ⟨u, hu, hui⟩ := List.mem_map.mp hin
    rw [List.mem_filter] at hu
    have := hu.2
    rw [hui] at this
    simp at this
  refine ⟨SchedStep.remove s t.id, hno, ?_, ?_⟩
  · intro tp hfp
    exact SchedStep.start (removeState s t.id) tp hno hfp
  · intro s'' hsteps
    have ha := idAbsent_steps hsteps habs
    exact ⟨ha.1, fun f => patchTask_absent f ha.1⟩

/-- Witness for C8 at run2: removing the processing task 0 empties the
queue of processing tasks, and the removed id 0 patches nothing. -/
theorem c8_cancellation_witness :
    SchedReachable run2 ∧ run2Task ∈ run2.tasks ∧
    run2Task.status = TStatus.processing ∧
    SchedStep run2 (removeState run2 run2Task.id) ∧
    anyProcessing (removeState run2 run2Task.id).tasks = false ∧
    run2Task.id ∉ (removeState run2 run2Task.id).tasks.map SchedTask.id ∧
    patchTask run2Task.id completePatch (removeState run2 run2Task.id).tasks =
      (removeState run2 run2Task.id).tasks := by
  have h := c8_cancellation run2 run2Task reach_run2 (by decide) rfl
  have h4 := h.2.2.2 (removeState run2 run2Task.id) Relation.ReflTransGen.refl
  exact ⟨reach_run2, by decide, rfl, h.1, h.2.1, h4.1, h4.2 completePatch⟩

/-- C10: the failure patch (the only transition to the error status)
changes exactly status, detailedStatus and warnings: it keeps the last
progress value, all blocks streamed before the failure, and the id,
name, MIME type, preview URL, page counters and target language. -/
theorem c10_fail_frame (t : SchedTask) (msg : String) :
    (failPatch msg t).status = TStatus.error ∧
    (failPatch msg t).detailedStatus = "Error encountered" ∧
    (failPatch msg t).warnings = [msg] ∧
    (failPatch msg t).id = t.id ∧
    (failPatch msg t).name = t.name ∧
    (failPatch msg t).ftype = t.ftype ∧
    (failPatch msg t).previewUrl = t.previewUrl ∧
    (failPatch msg t).progress = t.progress ∧
    (failPatch msg t).totalPages = t.totalPages ∧
    (failPatch msg t).processedPages = t.processedPages ∧
    (failPatch msg t).translatedBlocks = t.translatedBlocks ∧
    (failPatch msg t).targetLanguage = t.targetLanguage :=
  ⟨rfl, rfl, rfl, rfl, rfl, rfl, rfl, rfl, rfl, rfl, rfl, rfl⟩

/-- Witness for C4 at a concrete heading block with zoom 1: the final
font size lies in [9, 48] and is at least 14. -/
theorem c4_font_bounds_witness :
    (0 : ℚ) ≤ 1 ∧
    ((9 * 1 : ℚ) : ℝ) ≤ fontSizeFinal ⟨0, 0, 50, 50⟩ "hello" (some BType.heading) 1 ∧
    fontSizeFinal ⟨0, 0, 50, 50⟩ "hello" (some BType.heading) 1 ≤ ((48 * 1 : ℚ) : ℝ) ∧
    ((14 * 1 : ℚ) : ℝ) ≤ fontSizeFinal ⟨0, 0, 50, 50⟩ "hello" (some BType.heading) 1 := by
  have h := c4_font_bounds ⟨0, 0, 50, 50⟩ "hello" (some BType.heading) 1 (by norm_num)
  exact ⟨by norm_num, h.1, h.2.1, h.2.2 rfl⟩
